import Mathlib

/-!
Verification development for the `vortx` directory scanner (`src/scanner.py`).

The scanner walks a directory tree, filters entries against glob ignore
patterns (`should_ignore`, built on Python's `fnmatch`), builds an in-memory
tree (`scan_directory`) and aggregates statistics over it (`get_stats`).

Shallow embedding conventions:
* Strings are modelled at the level of their character lists (`String.data`);
  Python compares strings code point by code point, which coincides with
  comparing `Char.toNat` lexicographically.
* The filesystem visible to one scan is a finite tree (`FSNode`).  Results of
  `os.stat` size queries are modelled by `StatRes` (success, `PermissionError`,
  `FileNotFoundError`), and a directory whose listing raises `PermissionError`
  carries `denied := true`.
* Recursive walks take an explicit fuel argument so that every definition is
  structurally recursive and kernel-reducible; wrappers pass `sizeOf`-based
  fuel, which is always sufficient (proved where needed).
* Python's `str.lower` is modelled by `Char.toLower` (ASCII range), which
  agrees with Python on all ASCII file names.
-/

namespace Vortx

/-! ## Python string primitives -/

/-- Code-point comparison of characters, as Python compares characters. -/
def charLt (a b : Char) : Bool := a.toNat < b.toNat

/-- Lexicographic code-point comparison of character lists: Python's `<=` on
strings. -/
def lexLe : List Char → List Char → Bool
  | [], _ => true
  | _ :: _, [] => false
  | a :: as, b :: bs => charLt a b || (a == b && lexLe as bs)

/-- Python's `s1 <= s2` on strings (used by `sorted` on paths that share the
directory prefix, where it reduces to comparing the base names). -/
def strLe (a b : String) : Bool := lexLe a.data b.data

/-- Python's `str.lower` restricted to the ASCII range (`Char.toLower`). -/
def strLower (s : String) : String := ⟨s.data.map Char.toLower⟩

/-! ## `fnmatch.fnmatch`

Python's `fnmatch.translate` turns a pattern into a regular expression:
`*` becomes `.*` (it may cross `/`, because matching is done against a plain
string), `?` becomes `.`, and `[...]`/`[!...]` become character classes.  A
`[` without a closing `]` is matched literally.  Inside a class, the scan for
the closing `]` starts after an optional leading `!` and after a `]` that
immediately follows it (both are then part of the class content).  On POSIX
`os.path.normcase` is the identity, so matching is case-sensitive. -/

/-- One item of a character class: a single character or a range. -/
inductive ClsItem where
  | single (c : Char)
  | range (lo hi : Char)

/-- Membership of a character in a class body (ranges by code point; an empty
range `lo > hi` matches nothing, as in the translated regex). -/
def clsMatch (c : Char) (items : List ClsItem) : Bool :=
  items.any fun it =>
    match it with
    | .single c' => c == c'
    | .range lo hi => lo.toNat ≤ c.toNat && c.toNat ≤ hi.toNat

/-- Parse the body of a character class: `a-b` forms a range, any other
character stands for itself (a `-` at the start or end is literal). -/
def parseItems : List Char → List ClsItem
  | [] => []
  | a :: '-' :: b :: rest => .range a b :: parseItems rest
  | a :: rest => .single a :: parseItems rest

/-- Scan for the closing `]` of a character class, returning the class body
and the remainder of the pattern. -/
def scanClassAux : List Char → Option (List Char × List Char)
  | [] => none
  | ']' :: rest => some ([], rest)
  | c :: rest =>
    match scanClassAux rest with
    | some (s, r) => some (c :: s, r)
    | none => none

/-- Scan a class after the opening `[`: a leading `!`, and a `]` directly
after it, belong to the class body (CPython skips them before searching for
the closing `]`). -/
def scanClass : List Char → Option (List Char × List Char)
  | '!' :: ']' :: rest =>
    match scanClassAux rest with
    | some (s, r) => some ('!' :: ']' :: s, r)
    | none => none
  | '!' :: rest =>
    match scanClassAux rest with
    | some (s, r) => some ('!' :: s, r)
    | none => none
  | ']' :: rest =>
    match scanClassAux rest with
    | some (s, r) => some (']' :: s, r)
    | none => none
  | l => scanClassAux l

/-- One token of a translated glob pattern. -/
inductive GlobTok where
  | lit (c : Char)
  | qmark
  | star
  | cls (neg : Bool) (items : List ClsItem)

/-- Build a class token from a scanned class body. -/
def mkCls : List Char → GlobTok
  | '!' :: items => .cls true (parseItems items)
  | items => .cls false (parseItems items)

/-- Tokenise a glob pattern (fuelled; one unit of fuel per produced token
suffices, so `length + 1` is always enough). -/
def globParseF : Nat → List Char → List GlobTok
  | 0, _ => []
  | _ + 1, [] => []
  | fuel + 1, '*' :: rest => .star :: globParseF fuel rest
  | fuel + 1, '?' :: rest => .qmark :: globParseF fuel rest
  | fuel + 1, '[' :: rest =>
    match scanClass rest with
    | some (stuff, r) => mkCls stuff :: globParseF fuel r
    | none => .lit '[' :: globParseF fuel rest
  | fuel + 1, c :: rest => .lit c :: globParseF fuel rest

/-- Tokenise a glob pattern. -/
def globParse (p : List Char) : List GlobTok := globParseF (p.length + 1) p

/-- Match a token list against a character list.  `star` may consume any run
of characters (including `/`), exactly like the `.*` in the translated regex
under `re.DOTALL`. -/
def globMatchToks : List GlobTok → List Char → Bool
  | [], s => s.isEmpty
  | .star :: ps, s => s.tails.any fun t => globMatchToks ps t
  | .qmark :: ps, s =>
    match s with
    | [] => false
    | _ :: ss => globMatchToks ps ss
  | .cls neg items :: ps, s =>
    match s with
    | [] => false
    | c :: ss => (clsMatch c items != neg) && globMatchToks ps ss
  | .lit a :: ps, s =>
    match s with
    | [] => false
    | c :: ss => (a == c) && globMatchToks ps ss

/-- `fnmatch.fnmatch(s, pat)` on POSIX. -/
def fnmatch (s pat : String) : Bool := globMatchToks (globParse pat.data) s.data

/-! ## Relative paths

Relative paths are carried as their list of segments (the `parts` of the
`pathlib.PurePosixPath`); `pathStr` renders the string `str(path)` (which is
`"."` for the root, whose relative path is empty). -/

/-- Join segments with `/`. -/
def joinSegs : List String → List Char
  | [] => []
  | s :: rest => if rest.isEmpty then s.data else s.data ++ '/' :: joinSegs rest

/-- `str(p)` for a relative `pathlib` path with the given segments: `"."` when
there are none. -/
def pathStr (rel : List String) : String :=
  if rel.isEmpty then "." else ⟨joinSegs rel⟩

/-- Split a character list at `/` (`cur` holds the reversed current segment). -/
def splitSlashAux : List Char → List Char → List (List Char)
  | cur, [] => [cur.reverse]
  | cur, c :: rest =>
    if c = '/' then cur.reverse :: splitSlashAux [] rest
    else splitSlashAux (c :: cur) rest

/-- `PurePosixPath(s).parts` for a relative path string: split at `/`,
dropping empty segments and `"."` (so `"."` itself has no parts). -/
def pathParts (s : String) : List String :=
  ((splitSlashAux [] s.data).map fun l => (⟨l⟩ : String)).filter fun seg =>
    seg != "" && seg != "."

/-- `str(parent)` for every parent of the relative path, longest first and
ending with `"."`, as `PurePath.parents` yields them (empty for the root). -/
def parentStrs (rel : List String) : List String :=
  ((List.range rel.length).reverse).map fun i => pathStr (rel.take i)

/-! ## `should_ignore` -/

/-- `str(relative_path).replace('\\', '/')`. -/
def normSlashes (s : String) : String :=
  ⟨s.data.map fun c => if c = '\\' then '/' else c⟩

/-- Does the pattern end with `/`? -/
def endsWithSlash (p : String) : Bool := p.data.getLast? == some '/'

/-- `pattern[:-1]`. -/
def dropLastChar (p : String) : String := ⟨p.data.dropLast⟩

/-- `should_ignore(path, root_path, patterns)` from `src/scanner.py`, with the
entry given by its root-relative segments `rel` and its `is_dir()` status.
The entry is ignored when any pattern matches the full relative path, or is a
directory pattern (trailing `/`) whose stem matches a directory's base name or
which matches some parent rendered with a trailing `/`, or matches the base
name alone.  Python iterates a `set` of patterns; the result is a pure
disjunction, so the model takes the patterns as a list. -/
def should_ignore (rel : List String) (isDir : Bool) (patterns : List String) : Bool :=
  let path_str := normSlashes (pathStr rel)
  let name := rel.getLastD ""
  patterns.any fun pattern =>
    fnmatch path_str pattern ||
    (endsWithSlash pattern &&
      ((isDir && fnmatch name (dropLastChar pattern)) ||
        (parentStrs rel).any fun parent => fnmatch (parent ++ "/") pattern)) ||
    fnmatch name pattern

/-! ## Filesystem model -/

/-- Result of the `item.stat().st_size` query on a file: a size in bytes, a
`PermissionError`, or a `FileNotFoundError` (e.g. a broken symlink, whose
`is_dir()` is `False` and whose `stat()` raises). -/
inductive StatRes where
  | ok (size : Nat)
  | permDenied
  | notFound
deriving DecidableEq

/-- A filesystem entry as one scan observes it.  A directory whose listing
(`sorted(path.iterdir())`) raises `PermissionError` has `denied := true`. -/
inductive FSNode where
  | file (stat : StatRes)
  | dir (denied : Bool) (children : List (String × FSNode))

/-- `path.is_dir()`. -/
def FSNode.isDir : FSNode → Bool
  | .file _ => false
  | .dir _ _ => true

mutual

/-- Number of filesystem entries in a subtree (at least 1); used as the fuel
bound for the fuelled walk. -/
def FSNode.sz : FSNode → Nat
  | .file _ => 1
  | .dir _ cs => 1 + szEnts cs

/-- Total number of filesystem entries in an entry list. -/
def szEnts : List (String × FSNode) → Nat
  | [] => 0
  | (_, c) :: rest => 1 + FSNode.sz c + szEnts rest

end

/-- Insert an entry into a name-sorted entry list, before the first entry it
is `<=` to (a stable insertion). -/
def insertEnt (x : String × FSNode) : List (String × FSNode) → List (String × FSNode)
  | [] => [x]
  | y :: ys => if strLe x.1 y.1 then x :: y :: ys else y :: insertEnt x ys

/-- `sorted(path.iterdir())`: entries of one directory share their path
prefix, so `pathlib`'s path order is the code-point order of the base names;
the model is the stable insertion sort by name. -/
def sortEnts : List (String × FSNode) → List (String × FSNode)
  | [] => []
  | x :: xs => insertEnt x (sortEnts xs)

/-- A node of the tree built by `scan_directory`: the Python dicts
`{'name', 'type': 'file', 'path', 'size'}` and
`{'name', 'type': 'directory', 'path', 'children'[, 'error']}`. -/
inductive Structure where
  | fileNode (name : String) (path : String) (size : Nat)
  | dirNode (name : String) (path : String) (children : List Structure)
      (error : Option String)

/-- The `error` field of a node (`none` on file nodes). -/
def Structure.errorOf : Structure → Option String
  | .fileNode .. => none
  | .dirNode _ _ _ e => e

/-- The `children` field of a node (`[]` on file nodes). -/
def Structure.childrenOf : Structure → List Structure
  | .fileNode .. => []
  | .dirNode _ _ cs _ => cs

/-- An exception that escapes `scan_directory` (the `except` clause catches
only `PermissionError`): `NotADirectoryError` from `iterdir()` on a non
directory, or `FileNotFoundError` from `item.stat()`.  `fuelOut` is the
artefact of the fuelled embedding and never occurs with sufficient fuel. -/
inductive PyErr where
  | notADirectory
  | fileNotFound
  | fuelOut
deriving DecidableEq

mutual

/-- `scan_directory(path, root_path, patterns)` from `src/scanner.py`: build
the `Structure` for the directory at root-relative segments `rel`.  A denied
listing yields `children = []` and the `'Permission denied'` error marker (not
a failure).  Otherwise the sorted children are processed by `scanChildren`. -/
def scan_directory : Nat → String → List String → FSNode → List String →
    Except PyErr Structure
  | 0, _, _, _, _ => .error .fuelOut
  | _ + 1, _, _, .file _, _ => .error .notADirectory
  | _ + 1, name, rel, .dir true _, _ =>
    .ok (.dirNode name (pathStr rel) [] (some "Permission denied"))
  | fuel + 1, name, rel, .dir false entries, patterns =>
    match scanChildren fuel rel patterns (sortEnts entries) with
    | .error e => .error e
    | .ok (cs, err) => .ok (.dirNode name (pathStr rel) cs err)

/-- The `for item in sorted(path.iterdir())` loop of `scan_directory`, run on
the already-sorted entries of the directory at `rel`.  Ignored entries are
skipped; a file whose `stat()` raises `PermissionError` aborts the loop, so
the directory keeps the children built so far and gets the error marker; a
`FileNotFoundError` from `stat()` propagates (only `PermissionError` is
caught); errors from recursive calls propagate likewise. -/
def scanChildren : Nat → List String → List String → List (String × FSNode) →
    Except PyErr (List Structure × Option String)
  | 0, _, _, _ => .error .fuelOut
  | _ + 1, _, _, [] => .ok ([], none)
  | fuel + 1, rel, patterns, (n, FSNode.file st) :: rest =>
    if should_ignore (rel ++ [n]) false patterns then
      scanChildren fuel rel patterns rest
    else
      match st with
      | .ok size =>
        match scanChildren fuel rel patterns rest with
        | .error e => .error e
        | .ok (cs, err) =>
          .ok (.fileNode n (pathStr (rel ++ [n])) size :: cs, err)
      | .permDenied => .ok ([], some "Permission denied")
      | .notFound => .error .fileNotFound
  | fuel + 1, rel, patterns, (n, FSNode.dir d cs0) :: rest =>
    if should_ignore (rel ++ [n]) true patterns then
      scanChildren fuel rel patterns rest
    else
      match scan_directory fuel n (rel ++ [n]) (.dir d cs0) patterns with
      | .error e => .error e
      | .ok st =>
        match scanChildren fuel rel patterns rest with
        | .error e => .error e
        | .ok (cs, err) => .ok (st :: cs, err)

end

/-- `scan(root_dir)`: run `scan_directory` on the resolved root with the
loaded patterns.  The root itself is never passed to `should_ignore`.  The
fuel `fs.sz + 1` is always sufficient (each recursive step strictly decreases
the remaining entry count). -/
def scan (rootName : String) (fs : FSNode) (patterns : List String) :
    Except PyErr Structure :=
  scan_directory (fs.sz + 1) rootName [] fs patterns

/-! ## `get_stats` -/

/-- The `stats` accumulator dict of `get_stats`. -/
structure Stats where
  files : Nat
  directories : Nat
  total_size : Nat
  extensions : List (String × Nat)
  size_by_ext : List (String × Nat)
  largest_files : List (String × Nat)
  max_depth : Nat

/-- The `initial_stats` dict. -/
def initialStats : Stats :=
  { files := 0, directories := 0, total_size := 0, extensions := [],
    size_by_ext := [], largest_files := [], max_depth := 0 }

/-- `d.get(k, 0)` on a Python dict, modelled as an association list in
insertion order. -/
def dictGetD (d : List (String × Nat)) (k : String) : Nat :=
  match d.find? (fun p => p.1 == k) with
  | some p => p.2
  | none => 0

/-- `d[k] = v` on a Python dict: update the existing key in place, else
append the new key at the end. -/
def dictSet (d : List (String × Nat)) (k : String) (v : Nat) :
    List (String × Nat) :=
  if d.any (fun p => p.1 == k) then
    d.map fun p => if p.1 == k then (k, v) else p
  else d ++ [(k, v)]

/-- The extension component of `os.path.splitext(p)` on POSIX: the substring
from the last `.`, provided no `/` follows that dot and at least one
character strictly between the preceding `/` (or the start) and the dot is
not itself a dot — so names consisting of leading dots only, like
`".bashrc"`, have no extension. -/
def splitextExt (p : String) : String :=
  let r := p.data.reverse
  let after := r.takeWhile fun c => c != '.'
  let beforeRev := (r.dropWhile fun c => c != '.').drop 1
  if r.elem '.' && !after.elem '/' &&
      ((beforeRev.takeWhile fun c => c != '/').any fun c => c != '.') then
    ⟨'.' :: after.reverse⟩
  else ""

/-- Stable insertion into a descending-by-size list: the element goes before
the first entry of equal or smaller size. -/
def insertDesc (x : String × Nat) : List (String × Nat) → List (String × Nat)
  | [] => [x]
  | y :: ys => if y.2 ≤ x.2 then x :: y :: ys else y :: insertDesc x ys

/-- `lst.sort(key=lambda x: x[1], reverse=True)`: Python's sort is stable and
`reverse=True` keeps equal keys in their original order, so any stable
descending sort — here an insertion sort — is an exact model. -/
def sortDesc : List (String × Nat) → List (String × Nat)
  | [] => []
  | x :: xs => insertDesc x (sortDesc xs)

mutual

/-- `count_items(node, stats)`, the recursive worker of `get_stats`. -/
def count_items : Structure → Stats → Stats
  | .fileNode name path size, stats =>
    let stats1 := { stats with
      files := stats.files + 1,
      total_size := stats.total_size + size }
    let ext := strLower (splitextExt name)
    let stats2 :=
      if ext != "" then
        { stats1 with
          extensions :=
            dictSet stats1.extensions ext (dictGetD stats1.extensions ext + 1),
          size_by_ext :=
            dictSet stats1.size_by_ext ext
              (dictGetD stats1.size_by_ext ext + size) }
      else stats1
    { stats2 with
      largest_files := (sortDesc (stats2.largest_files ++ [(path, size)])).take 10 }
  | .dirNode _ path children _, stats =>
    let stats1 := { stats with
      directories := stats.directories + 1,
      max_depth := max stats.max_depth (pathParts path).length }
    count_list children stats1

/-- The `for child in node.get('children', [])` loop of `count_items`. -/
def count_list : List Structure → Stats → Stats
  | [], stats => stats
  | c :: rest, stats => count_list rest (count_items c stats)

end

/-- `get_stats(structure)`. -/
def get_stats (t : Structure) : Stats := count_items t initialStats

/-! ## Counting functions over the built tree -/

mutual

/-- Number of `File` nodes in a tree. -/
def fileCount : Structure → Nat
  | .fileNode .. => 1
  | .dirNode _ _ cs _ => fileCountList cs

/-- Number of `File` nodes in a forest. -/
def fileCountList : List Structure → Nat
  | [] => 0
  | c :: rest => fileCount c + fileCountList rest

end

mutual

/-- Number of `Directory` nodes in a tree. -/
def dirCount : Structure → Nat
  | .fileNode .. => 0
  | .dirNode _ _ cs _ => 1 + dirCountList cs

/-- Number of `Directory` nodes in a forest. -/
def dirCountList : List Structure → Nat
  | [] => 0
  | c :: rest => dirCount c + dirCountList rest

end

mutual

/-- Total number of nodes in a tree. -/
def nodeCount : Structure → Nat
  | .fileNode .. => 1
  | .dirNode _ _ cs _ => 1 + nodeCountList cs

/-- Total number of nodes in a forest. -/
def nodeCountList : List Structure → Nat
  | [] => 0
  | c :: rest => nodeCount c + nodeCountList rest

end

mutual

/-- The `(path, size)` pairs of the `File` nodes of a tree, in traversal
order. -/
def fileListS : Structure → List (String × Nat)
  | .fileNode _ p sz => [(p, sz)]
  | .dirNode _ _ cs _ => fileListSList cs

/-- The `(path, size)` pairs of the `File` nodes of a forest. -/
def fileListSList : List Structure → List (String × Nat)
  | [] => []
  | c :: rest => fileListS c ++ fileListSList rest

end

mutual

/-- The maximum, over the `Directory` nodes of a tree, of the number of
`parts` of the stored relative path (`0` when the tree is a single file). -/
def maxDirDepth : Structure → Nat
  | .fileNode .. => 0
  | .dirNode _ p cs _ => max (pathParts p).length (maxDirDepthList cs)

/-- `maxDirDepth` over a forest. -/
def maxDirDepthList : List Structure → Nat
  | [] => 0
  | c :: rest => max (maxDirDepth c) (maxDirDepthList rest)

end

mutual

/-- Does every `Directory` node sit at the level its stored path says?  A
directory node at tree level `k` (root at level `0`) must have a stored path
with exactly `k` parts, its children sitting at level `k + 1`. -/
def depthsOk : Nat → Structure → Bool
  | _, .fileNode .. => true
  | k, .dirNode _ p cs _ => ((pathParts p).length == k) && depthsOkList (k + 1) cs

/-- `depthsOk` over a forest of nodes at one level. -/
def depthsOkList : Nat → List Structure → Bool
  | _, [] => true
  | k, c :: rest => depthsOk k c && depthsOkList k rest

end

mutual

/-- File nodes `(path, size)` of a tree that do not lie inside a directory
carrying an error marker (the claim-side reading of "not inside an errored
directory" for C8). -/
def filesOutsideErrored : Structure → List (String × Nat)
  | .fileNode _ p sz => [(p, sz)]
  | .dirNode _ _ cs err =>
    match err with
    | some _ => []
    | none => filesOutsideErroredList cs

/-- `filesOutsideErrored` over a forest. -/
def filesOutsideErroredList : List Structure → List (String × Nat)
  | [] => []
  | c :: rest => filesOutsideErrored c ++ filesOutsideErroredList rest

end

/-! ## Predicates on the filesystem model -/

/-- A base name the scanner can actually meet: nonempty, not `"."`, and free
of the separator (`iterdir` never yields such names). -/
def validSeg (s : String) : Bool :=
  s != "" && s != "." && !(s.data.elem '/')

mutual

/-- Do all entry names in the subtree satisfy `validSeg`? -/
def validNames : FSNode → Bool
  | .file _ => true
  | .dir _ cs => validNamesEnts cs

/-- `validNames` over an entry list. -/
def validNamesEnts : List (String × FSNode) → Bool
  | [] => true
  | (n, c) :: rest => validSeg n && validNames c && validNamesEnts rest

end

mutual

/-- No file in the subtree answers its `stat()` with `FileNotFoundError`. -/
def FSNode.noNotFound : FSNode → Bool
  | .file st => st != StatRes.notFound
  | .dir _ cs => entsNoNotFound cs

/-- `noNotFound` over an entry list. -/
def entsNoNotFound : List (String × FSNode) → Bool
  | [] => true
  | (_, c) :: rest => c.noNotFound && entsNoNotFound rest

end

mutual

/-- Every file in the subtree answers its `stat()` successfully. -/
def cleanStats : FSNode → Bool
  | .file st =>
    match st with
    | .ok _ => true
    | _ => false
  | .dir _ cs => cleanStatsEnts cs

/-- `cleanStats` over an entry list. -/
def cleanStatsEnts : List (String × FSNode) → Bool
  | [] => true
  | (_, c) :: rest => cleanStats c && cleanStatsEnts rest

end

/-! ## Spec-side definitions (for comparison with the code) -/

/-- The extension exactly as claim C6 words it: the lowercase substring of
the base name starting at the last `.` (including the dot), and the empty
string when the name contains no `.`. -/
def specExtLastDot (p : String) : String :=
  let r := p.data.reverse
  if r.elem '.' then strLower ⟨'.' :: (r.takeWhile fun c => c != '.').reverse⟩
  else ""

mutual

/-- Modelled from the spec (§8, C8): the files below the directory at `rel`
that are not matched by any ignore pattern and do not lie inside an ignored
or listing-denied directory, with their root-relative paths and sizes, in the
order the sorted walk visits them.  Files whose `stat()` fails carry no size
and are not collected. -/
def qualFiles : Nat → List String → List String → FSNode → List (String × Nat)
  | 0, _, _, _ => []
  | _ + 1, _, _, .file _ => []
  | _ + 1, _, _, .dir true _ => []
  | fuel + 1, pats, rel, .dir false entries =>
    qualFilesList fuel pats rel (sortEnts entries)

/-- `qualFiles` over a sorted entry list. -/
def qualFilesList : Nat → List String → List String → List (String × FSNode) →
    List (String × Nat)
  | 0, _, _, _ => []
  | _ + 1, _, _, [] => []
  | fuel + 1, pats, rel, (n, c) :: rest =>
    if should_ignore (rel ++ [n]) c.isDir pats then
      qualFilesList fuel pats rel rest
    else
      match c with
      | .file (.ok sz) => (pathStr (rel ++ [n]), sz) :: qualFilesList fuel pats rel rest
      | .file _ => qualFilesList fuel pats rel rest
      | .dir _ _ => qualFiles fuel pats (rel ++ [n]) c ++ qualFilesList fuel pats rel rest

end

/-- `qualFiles` at the root with sufficient fuel. -/
def qualFilesTop (pats : List String) (fs : FSNode) : List (String × Nat) :=
  qualFiles (fs.sz + 1) pats [] fs

/-- Replace the top-level name of a node (the only use `scan_directory` makes
of its `name` argument). -/
def setName (n : String) : Structure → Structure
  | .fileNode _ p sz => .fileNode n p sz
  | .dirNode _ p cs e => .dirNode n p cs e

/-- Descending-by-size sortedness of the `largest_files` list. -/
abbrev SortedDesc (l : List (String × Nat)) : Prop :=
  List.Pairwise (fun a b => b.2 ≤ a.2) l

/-! ## Concrete scenarios -/

/-- The C1 scenario: `a.txt` (10 bytes), `b/c.txt` (20 bytes), empty `d`. -/
def c1fs : FSNode :=
  .dir false
    [("a.txt", .file (.ok 10)),
     ("b", .dir false [("c.txt", .file (.ok 20))]),
     ("d", .dir false [])]

/-- The tree the scanner builds in the C1 scenario with pattern `b/`. -/
def c1tree : Structure :=
  .dirNode "root" "."
    [.fileNode "a.txt" "a.txt" 10, .dirNode "d" "d" [] none] none

/-- A root whose second file answers `stat()` with `PermissionError`. -/
def permFS : FSNode :=
  .dir false [("a.txt", .file (.ok 10)), ("b.txt", .file .permDenied)]

/-- The tree built from `permFS`: the error marker together with the child
scanned before the failing `stat()`. -/
def permTree : Structure :=
  .dirNode "r" "." [.fileNode "a.txt" "a.txt" 10] (some "Permission denied")

/-- A root with ordinary files around a listing-denied subdirectory. -/
def deniedSiblingFS : FSNode :=
  .dir false
    [("a.txt", .file (.ok 10)), ("locked", .dir true []),
     ("z.txt", .file (.ok 7))]

/-- The tree built from `deniedSiblingFS`. -/
def deniedSiblingTree : Structure :=
  .dirNode "r" "."
    [.fileNode "a.txt" "a.txt" 10,
     .dirNode "locked" "locked" [] (some "Permission denied"),
     .fileNode "z.txt" "z.txt" 7] none

/-- A listable root containing one broken symlink (`stat()` raises
`FileNotFoundError`). -/
def brokenLinkFS : FSNode := .dir false [("x", .file .notFound)]

/-- A tree consisting of a single `.bashrc` file node. -/
def bashrcTree : Structure := .fileNode ".bashrc" ".bashrc" 5

/-- The tree built when scanning an empty root directory. -/
def emptyRootTree : Structure := .dirNode "r" "." [] none

/-! ## Induction principles -/

/-- Simultaneous induction for `Structure` and forests of children. -/
theorem structureInd (P : Structure → Prop) (Q : List Structure → Prop)
    (hfile : ∀ name path size, P (.fileNode name path size))
    (hdir : ∀ name path cs err, Q cs → P (.dirNode name path cs err))
    (hnil : Q [])
    (hcons : ∀ c rest, P c → Q rest → Q (c :: rest)) :
    (∀ t, P t) ∧ ∀ l, Q l := by
  have ht : ∀ t, P t := fun t => @Structure.rec P Q hfile hdir hnil hcons t
  refine ⟨ht, ?_⟩
  intro l
  induction l with
  | nil => exact hnil
  | cons c rest ih => exact hcons c rest (ht c) ih

/-- Simultaneous induction for `FSNode` and entry lists. -/
theorem fsInd (P : FSNode → Prop) (Q : List (String × FSNode) → Prop)
    (hfile : ∀ st, P (.file st))
    (hdir : ∀ d cs, Q cs → P (.dir d cs))
    (hnil : Q [])
    (hcons : ∀ n c rest, P c → Q rest → Q ((n, c) :: rest)) :
    (∀ t, P t) ∧ ∀ l, Q l := by
  have ht : ∀ t, P t := fun t =>
    @FSNode.rec P Q (fun p => P p.2) hfile hdir hnil
      (fun hd tl hh htl => by
        obtain ⟨n, c⟩ := hd
        exact hcons n c tl hh htl)
      (fun _ c hc => hc) t
  refine ⟨ht, ?_⟩
  intro l
  induction l with
  | nil => exact hnil
  | cons hd rest ih =>
    obtain ⟨n, c⟩ := hd
    exact hcons n c rest (ht c) ih

/-! ## Aggregation counts files and directories exactly (C10) -/

/-- `count_items` adds the number of file and directory nodes of the subtree
to the running counters. -/
theorem count_items_counts :
    (∀ t s, (count_items t s).files = s.files + fileCount t ∧
      (count_items t s).directories = s.directories + dirCount t) ∧
    ∀ l s, (count_list l s).files = s.files + fileCountList l ∧
      (count_list l s).directories = s.directories + dirCountList l := by
  refine structureInd _ _ ?_ ?_ ?_ ?_
  · intro name path size s
    simp only [count_items, fileCount, dirCount]
    split <;> simp
  · intro name path cs err ih s
    simp only [count_items, fileCount, dirCount]
    have h := ih { s with
      directories := s.directories + 1,
      max_depth := max s.max_depth (pathParts path).length }
    refine ⟨?_, ?_⟩
    · rw [h.1]
    · rw [h.2]
      show s.directories + 1 + dirCountList cs = s.directories + (1 + dirCountList cs)
      omega
  · intro s
    simp [count_list, fileCountList, dirCountList]
  · intro c rest ihc ihr s
    simp only [count_list, fileCountList, dirCountList]
    have h1 := ihc s
    have h2 := ihr (count_items c s)
    refine ⟨?_, ?_⟩
    · rw [h2.1, h1.1]; omega
    · rw [h2.2, h1.2]; omega

/-- `nodeCount` splits into file and directory counts. -/
theorem nodeCount_split :
    (∀ t, fileCount t + dirCount t = nodeCount t) ∧
    ∀ l, fileCountList l + dirCountList l = nodeCountList l := by
  refine structureInd _ _ ?_ ?_ ?_ ?_
  · intro name path size
    simp [fileCount, dirCount, nodeCount]
  · intro name path cs err ih
    simp only [fileCount, dirCount, nodeCount]
    omega
  · simp [fileCountList, dirCountList, nodeCountList]
  · intro c rest ihc ihr
    simp only [fileCountList, dirCountList, nodeCountList]
    omega

/-- Claim C10 (confirmed): aggregation counts each node exactly once as a
file or a directory: `files` is the number of `File` nodes, `directories`
the number of `Directory` nodes, and their sum is the total node count. -/
theorem c10_files_plus_directories (t : Structure) :
    (get_stats t).files = fileCount t ∧
    (get_stats t).directories = dirCount t ∧
    (get_stats t).files + (get_stats t).directories = nodeCount t := by
  have h := count_items_counts.1 t initialStats
  have hs : initialStats.files = 0 ∧ initialStats.directories = 0 := ⟨rfl, rfl⟩
  have hn := nodeCount_split.1 t
  unfold get_stats
  refine ⟨?_, ?_, ?_⟩
  · rw [h.1, hs.1]; omega
  · rw [h.2, hs.2]; omega
  · rw [h.1, h.2, hs.1, hs.2]; omega

/-! ## The C1 scenario (C1) -/

/-- Claim C1 counterexample: in the C1 scenario (root with `a.txt` of 10
bytes, `b/c.txt` of 20 bytes, empty `d`, pattern `b/`) the code computes
`max_depth = 1` — the root's relative path `"."` has no parts, and `d` has
one — whereas the claim expects `max_depth = 2`. -/
theorem c1_counterexample :
    scan "root" c1fs ["b/"] = .ok c1tree ∧
    (get_stats c1tree).max_depth = 1 ∧ (get_stats c1tree).max_depth ≠ 2 :=
  ⟨rfl, rfl, by decide⟩

/-- Claim C1 amended: the C1 scenario yields `files = 1`, `directories = 2`,
`total_size = 10` and `max_depth = 1` (the root counts as 0 path segments,
its subdirectory `d` as 1). -/
theorem c1_scenario_stats :
    scan "root" c1fs ["b/"] = .ok c1tree ∧
    (get_stats c1tree).files = 1 ∧
    (get_stats c1tree).directories = 2 ∧
    (get_stats c1tree).total_size = 10 ∧
    (get_stats c1tree).max_depth = 1 :=
  ⟨rfl, rfl, rfl, rfl, rfl⟩

/-! ## The root is never matched (C9) -/

/-- Claim C9 (confirmed): the scan root itself is never tested against the
ignore patterns: whenever a scan of a directory root succeeds it returns a
`Directory` node for the root (with path `"."`), for every pattern set —
and the result of `scan_directory` depends on its `name` argument only
through the name stored in the root node, so patterns can never filter the
root (they are consulted for entries strictly below it only). -/
theorem c9_root_never_matched :
    (∀ name (d : Bool) entries pats t,
        scan name (.dir d entries) pats = .ok t →
        ∃ cs err, t = .dirNode name "." cs err) ∧
    ∀ fuel n₁ n₂ rel fs pats,
      scan_directory fuel n₁ rel fs pats =
        (scan_directory fuel n₂ rel fs pats).map (setName n₁) := by
  constructor
  · intro name d entries pats t h
    unfold scan at h
    cases d with
    | true =>
      rw [scan_directory] at h
      exact ⟨[], some "Permission denied", by
        cases h
        rfl⟩
    | false =>
      rw [scan_directory] at h
      split at h
      · exact absurd h (by simp)
      · rename_i cs err heq
        refine ⟨cs, err, ?_⟩
        cases h
        rfl
  · intro fuel n₁ n₂ rel fs pats
    match fuel, fs with
    | 0, _ => rfl
    | _ + 1, .file _ => rfl
    | _ + 1, .dir true _ => rfl
    | fuel + 1, .dir false entries =>
      rw [scan_directory, scan_directory]
      cases scanChildren fuel rel pats (sortEnts entries) with
      | error e => rfl
      | ok p => rfl

/-- Witness for C9: scanning an empty root named `b` with the pattern set
`{"b"}` (which matches the root's own name) still returns the root
directory node. -/
theorem c9_root_never_matched_witness :
    ∃ cs err, (Structure.dirNode "b" "." [] none) = .dirNode "b" "." cs err :=
  c9_root_never_matched.1 "b" false [] ["b"] _ rfl

/-! ## Pattern matching scenarios (C3) -/

/-- Claim C3 counterexample: the entry `sub/build/x.txt` lies beneath the
directory `sub/build`, which is named `build`, yet `should_ignore` answers
`false` for it under the pattern `build/`: the parent check renders each
parent of the relative path with a trailing slash (`sub/build/`, `sub/`,
`./`) and none of these equals `build/`.  So `should_ignore` is not true for
every entry beneath a directory named `build` — only the walk's pruning (an
ignored directory is never recursed into) keeps such entries out of the
tree. -/
theorem c3_counterexample :
    should_ignore ["sub", "build", "x.txt"] false ["build/"] = false := by
  decide

/-- Claim C3 amended: with pattern `*.log`, `should_ignore` is true for
`app.log` and `sub/dir/app.log` and false for `app.logs`; with pattern
`build/`, it is true for a directory named `build` at any depth and for
every entry strictly beneath a root-level `build` directory, and false for a
(root-level) file named `build`; with pattern `temp`, it is true for any
file or directory whose base name is exactly `temp`, at any depth.  (Entries
beneath a deeper directory named `build` are excluded from the tree by the
walk's pruning instead, cf. the counterexample.) -/
theorem c3_pattern_scenarios :
    (should_ignore ["app.log"] false ["*.log"] = true ∧
     should_ignore ["sub", "dir", "app.log"] false ["*.log"] = true ∧
     should_ignore ["app.logs"] false ["*.log"] = false) ∧
    ((∀ pre : List String, should_ignore (pre ++ ["build"]) true ["build/"] = true) ∧
     (∀ (rest : List String) (isDir : Bool), rest ≠ [] →
        should_ignore ("build" :: rest) isDir ["build/"] = true) ∧
     should_ignore ["build"] false ["build/"] = false) ∧
    ∀ (pre : List String) (isDir : Bool),
      should_ignore (pre ++ ["temp"]) isDir ["temp"] = true := by
  refine ⟨⟨by decide, by decide, by decide⟩, ⟨?_, ?_, by decide⟩, ?_⟩
  · intro pre
    have hname : (pre ++ ["build"]).getLastD "" = "build" := List.getLastD_concat _ _ _
    simp only [should_ignore, List.any_cons, List.any_nil, Bool.or_false, hname]
    rw [show endsWithSlash "build/" = true from rfl,
        show fnmatch "build" (dropLastChar "build/") = true from rfl]
    simp
  · intro rest isDir hne
    have hmem : "build" ∈ parentStrs ("build" :: rest) := by
      unfold parentStrs
      rw [List.mem_map]
      refine ⟨1, ?_, rfl⟩
      rw [List.mem_reverse, List.mem_range]
      simp only [List.length_cons]
      have h0 : rest.length ≠ 0 := by
        intro h0
        exact hne (List.eq_nil_of_length_eq_zero h0)
      omega
    have hpar : (parentStrs ("build" :: rest)).any
        (fun parent => fnmatch (parent ++ "/") "build/") = true := by
      rw [List.any_eq_true]
      exact ⟨"build", hmem, by rfl⟩
    simp only [should_ignore, List.any_cons, List.any_nil, Bool.or_false]
    rw [hpar, show endsWithSlash "build/" = true from rfl]
    simp
  · intro pre isDir
    have hname : (pre ++ ["temp"]).getLastD "" = "temp" := List.getLastD_concat _ _ _
    simp only [should_ignore, List.any_cons, List.any_nil, Bool.or_false, hname]
    rw [show fnmatch "temp" "temp" = true from rfl]
    simp

/-- Witness for C3: a directory named `build` nested at depth 2 is ignored,
an entry beneath a root-level `build` is ignored, and a deep file named
`temp` is ignored. -/
theorem c3_pattern_scenarios_witness :
    should_ignore (["sub"] ++ ["build"]) true ["build/"] = true ∧
    should_ignore ("build" :: ["obj", "x.o"]) true ["build/"] = true ∧
    should_ignore (["a", "b"] ++ ["temp"]) false ["temp"] = true :=
  ⟨c3_pattern_scenarios.2.1.1 ["sub"],
   c3_pattern_scenarios.2.1.2.1 ["obj", "x.o"] true (by decide),
   c3_pattern_scenarios.2.2 ["a", "b"] false⟩

/-! ## Permission-denied handling (C4) -/

/-- Claim C4 counterexample: a `PermissionError` raised by a file's `stat()`
call partway through the listing loop is caught by the same `except` clause,
so the parent directory node carries the error marker while keeping the
children built before the failure — a node with the error marker and a
non-empty children list, refuting "every node with the error marker has no
children". -/
theorem c4_counterexample :
    scan "r" permFS [] = .ok permTree ∧
    permTree.errorOf = some "Permission denied" ∧
    permTree.childrenOf.length = 1 :=
  ⟨rfl, rfl, rfl⟩

/-- Claim C4 amended: a directory whose listing is denied always yields a
node with the access-denied marker and an empty children list, and such a
failure is not fatal: in a root with files `a.txt` (10) and `z.txt` (7)
around a listing-denied `locked` directory, the scan succeeds and the stats
still count both sibling files and their sizes.  (Only a `PermissionError`
on a file's `stat()` — not on a listing — can leave an error-marked node
with children, cf. the counterexample.) -/
theorem c4_denied_listing :
    (∀ fuel name rel entries pats,
        scan_directory (fuel + 1) name rel (.dir true entries) pats =
          .ok (.dirNode name (pathStr rel) [] (some "Permission denied"))) ∧
    (scan "r" deniedSiblingFS [] = .ok deniedSiblingTree ∧
     (get_stats deniedSiblingTree).files = 2 ∧
     (get_stats deniedSiblingTree).directories = 2 ∧
     (get_stats deniedSiblingTree).total_size = 17) :=
  ⟨fun _ _ _ _ _ => rfl, rfl, rfl, rfl, rfl⟩

/-! ## Failure propagation (C5) -/

/-- `insertEnt` adds exactly its element's entry count. -/
theorem szEnts_insertEnt (x : String × FSNode) (l : List (String × FSNode)) :
    szEnts (insertEnt x l) = 1 + x.2.sz + szEnts l := by
  induction l with
  | nil => rfl
  | cons y ys ih =>
    obtain ⟨m, c⟩ := y
    obtain ⟨n, xc⟩ := x
    simp only [insertEnt]
    split
    · rfl
    · simp only [szEnts, ih]
      omega

/-- Sorting entries preserves their entry count. -/
theorem szEnts_sortEnts (l : List (String × FSNode)) :
    szEnts (sortEnts l) = szEnts l := by
  induction l with
  | nil => rfl
  | cons x xs ih =>
    obtain ⟨n, c⟩ := x
    simp only [sortEnts, szEnts_insertEnt, szEnts, ih]

/-- `insertEnt` preserves the absence of `FileNotFoundError` stats. -/
theorem entsNoNotFound_insertEnt (x : String × FSNode) (l : List (String × FSNode)) :
    entsNoNotFound (insertEnt x l) = (x.2.noNotFound && entsNoNotFound l) := by
  induction l with
  | nil => rfl
  | cons y ys ih =>
    obtain ⟨m, c⟩ := y
    obtain ⟨n, xc⟩ := x
    simp only [insertEnt]
    split
    · rfl
    · simp only [entsNoNotFound, ih]
      rw [Bool.and_left_comm]

/-- Sorting entries preserves the absence of `FileNotFoundError` stats. -/
theorem entsNoNotFound_sortEnts (l : List (String × FSNode)) :
    entsNoNotFound (sortEnts l) = entsNoNotFound l := by
  induction l with
  | nil => rfl
  | cons x xs ih =>
    obtain ⟨n, c⟩ := x
    simp only [sortEnts, entsNoNotFound_insertEnt, entsNoNotFound, ih]

/-- With sufficient fuel, a scan of a directory in which no file answers its
`stat()` with `FileNotFoundError` always succeeds: denied listings and
denied file stats are caught locally. -/
theorem scan_ok_of_noNotFound :
    ∀ fuel,
      (∀ (fs : FSNode) name rel pats, fs.sz < fuel → fs.noNotFound = true →
        fs.isDir = true → ∃ t, scan_directory fuel name rel fs pats = .ok t) ∧
      (∀ l rel pats, szEnts l < fuel → entsNoNotFound l = true →
        ∃ cs err, scanChildren fuel rel pats l = .ok (cs, err)) := by
  intro fuel
  induction fuel with
  | zero =>
    exact ⟨fun fs _ _ _ h => absurd h (by omega),
           fun l _ _ h => absurd h (by omega)⟩
  | succ fuel ih =>
    constructor
    · intro fs name rel pats hsz hnn hdir
      match fs with
      | .file _ => simp [FSNode.isDir] at hdir
      | .dir true entries => exact ⟨_, rfl⟩
      | .dir false entries =>
        have hb : szEnts (sortEnts entries) < fuel := by
          rw [szEnts_sortEnts]
          have hs : FSNode.sz (.dir false entries) = 1 + szEnts entries := rfl
          omega
        have hn : entsNoNotFound (sortEnts entries) = true := by
          rw [entsNoNotFound_sortEnts]
          exact hnn
        obtain ⟨cs, err, h⟩ := ih.2 (sortEnts entries) rel pats hb hn
        refine ⟨.dirNode name (pathStr rel) cs err, ?_⟩
        rw [scan_directory, h]
    · intro l rel pats hsz hnn
      match l with
      | [] => exact ⟨[], none, rfl⟩
      | (n, c) :: rest =>
        have hsz' : 1 + FSNode.sz c + szEnts rest < fuel + 1 := hsz
        obtain ⟨hc, hrest⟩ := Bool.and_eq_true_iff.mp hnn
        cases c with
        | file st =>
          cases st with
          | ok size =>
            simp only [scanChildren]
            by_cases hig : should_ignore (rel ++ [n]) false pats = true
            · rw [if_pos hig]
              exact ih.2 rest rel pats (by omega) hrest
            · rw [if_neg hig]
              obtain ⟨cs, err, h⟩ := ih.2 rest rel pats (by omega) hrest
              rw [h]
              exact ⟨_, _, rfl⟩
          | permDenied =>
            simp only [scanChildren]
            by_cases hig : should_ignore (rel ++ [n]) false pats = true
            · rw [if_pos hig]
              exact ih.2 rest rel pats (by omega) hrest
            · rw [if_neg hig]
              exact ⟨[], some "Permission denied", rfl⟩
          | notFound => simp [FSNode.noNotFound] at hc
        | dir d cs0 =>
          simp only [scanChildren]
          by_cases hig : should_ignore (rel ++ [n]) true pats = true
          · rw [if_pos hig]
            exact ih.2 rest rel pats (by omega) hrest
          · rw [if_neg hig]
            obtain ⟨t, ht⟩ := ih.1 (.dir d cs0) n (rel ++ [n]) pats
              (by simp only [FSNode.sz] at hsz' ⊢; omega) hc rfl
            rw [ht]
            obtain ⟨cs, err, h⟩ := ih.2 rest rel pats (by omega) hrest
            rw [h]
            exact ⟨_, _, rfl⟩

/-- Claim C5 counterexample: a listable root (`denied = false`) containing a
single broken symlink — `is_dir()` false, `stat()` raising
`FileNotFoundError` — makes the whole scan invocation fail: the `except`
clause catches only `PermissionError`, so the exception escapes `scan`.  The
claim's "the scan invocation never fails" is refuted below the root. -/
theorem c5_counterexample :
    scan "r" brokenLinkFS [] = .error .fileNotFound := rfl

/-- Claim C5 amended: for every scan of a directory root in which no file
answers its size query with a not-found error, the invocation never fails:
permission errors (on listings and on individual `stat()` calls) are
recovered locally and a best-effort tree is returned.  A
`FileNotFoundError` from a file's `stat()` (e.g. a broken symlink),
however, propagates and makes the whole invocation fail, cf. the
counterexample. -/
theorem c5_scan_total_without_notfound :
    ∀ name (d : Bool) entries pats,
      FSNode.noNotFound (.dir d entries) = true →
      ∃ t, scan name (.dir d entries) pats = .ok t := by
  intro name d entries pats h
  exact (scan_ok_of_noNotFound _).1 _ name [] pats (by omega) h rfl

/-- Witness for C5: the root with a denied file stat (but no broken symlink)
scans successfully. -/
theorem c5_scan_total_without_notfound_witness :
    ∃ t, scan "r" permFS [] = .ok t :=
  c5_scan_total_without_notfound "r" false _ [] (by decide)

/-! ## File extensions (C6) -/

/-- `takeWhile` keeps a list all of whose elements satisfy the predicate. -/
theorem takeWhile_all {p : Char → Bool} :
    ∀ l : List Char, (∀ a ∈ l, p a = true) → l.takeWhile p = l := by
  intro l h
  induction l with
  | nil => rfl
  | cons a l ih =>
    rw [List.takeWhile_cons_of_pos (h a (by simp))]
    rw [ih (fun b hb => h b (by simp [hb]))]

/-- After `dictSet d k v` the dictionary has an entry under key `k`. -/
theorem dictSet_hasKey (d : List (String × Nat)) (k : String) (v : Nat) :
    (dictSet d k v).any (fun q => q.1 == k) = true := by
  unfold dictSet
  split
  · rename_i h
    rw [List.any_eq_true] at h ⊢
    obtain ⟨p, hp, hk⟩ := h
    refine ⟨(k, v), ?_, by simp⟩
    rw [List.mem_map]
    refine ⟨p, hp, ?_⟩
    rw [if_pos hk]
  · rw [List.any_eq_true]
    exact ⟨(k, v), List.mem_append_right _ (List.mem_singleton_self _), by simp⟩

/-- Claim C6 counterexample: for the name `.bashrc` the claim's extension —
the substring from the last `.`, here `.bashrc` itself — is non-empty, yet
`os.path.splitext` yields the empty extension (a leading-dot name has no
extension) and aggregating a single `.bashrc` file node leaves both the
`extensions` and `size_by_ext` maps empty. -/
theorem c6_counterexample :
    specExtLastDot ".bashrc" = ".bashrc" ∧ specExtLastDot ".bashrc" ≠ "" ∧
    strLower (splitextExt ".bashrc") = "" ∧
    (get_stats bashrcTree).extensions = [] ∧
    (get_stats bashrcTree).size_by_ext = [] :=
  ⟨rfl, by decide, rfl, rfl, rfl⟩

/-- Claim C6 amended: the aggregator computes the extension as the lowercase
substring of the base name starting at the last `.` (including the dot)
provided at least one character before that dot is not itself a dot; it is
empty when the name contains no `.` or consists of leading dots only (such
as `.bashrc`).  Whenever the computed extension is non-empty (e.g. `"."` for
a name like `file.`), the `extensions` and `size_by_ext` maps are updated
under that key. -/
theorem c6_extension_rule :
    (∀ nm : String, '.' ∉ nm.data → strLower (splitextExt nm) = "") ∧
    (∀ before after : List Char, '.' ∉ after → '/' ∉ before → '/' ∉ after →
      (((before.any fun c => c != '.') = true →
        strLower (splitextExt ⟨before ++ '.' :: after⟩) = strLower ⟨'.' :: after⟩) ∧
       ((before.all fun c => c == '.') = true →
        strLower (splitextExt ⟨before ++ '.' :: after⟩) = ""))) ∧
    ∀ (nm p : String) (sz : Nat) (s : Stats), strLower (splitextExt nm) ≠ "" →
      ((count_items (.fileNode nm p sz) s).extensions.any
          (fun q => q.1 == strLower (splitextExt nm)) = true ∧
       (count_items (.fileNode nm p sz) s).size_by_ext.any
          (fun q => q.1 == strLower (splitextExt nm)) = true) := by
  refine ⟨?_, ?_, ?_⟩
  · intro nm h
    have hmem : ('.' ∈ nm.data.reverse) = False := by simp [List.mem_reverse, h]
    simp [splitextExt, List.elem_eq_mem, hmem, strLower]
  · intro before after ha hb ha2
    have hr : (⟨before ++ '.' :: after⟩ : String).data.reverse
        = after.reverse ++ '.' :: before.reverse := by
      show (before ++ '.' :: after).reverse = _
      rw [List.reverse_append, List.reverse_cons, List.append_assoc]
      rfl
    have hpos : ∀ a ∈ after.reverse, (a != '.') = true := by
      intro a hamem
      rw [List.mem_reverse] at hamem
      simp only [bne_iff_ne, ne_eq]
      intro hcontra
      exact ha (hcontra ▸ hamem)
    have htw : (after.reverse ++ '.' :: before.reverse).takeWhile (fun c => c != '.')
        = after.reverse := by
      rw [List.takeWhile_append_of_pos hpos, List.takeWhile_cons_of_neg (by simp),
        List.append_nil]
    have hdw : ((after.reverse ++ '.' :: before.reverse).dropWhile
        (fun c => c != '.')).drop 1 = before.reverse := by
      rw [List.dropWhile_append_of_pos hpos, List.dropWhile_cons_of_neg (by simp)]
      rfl
    have helem : (after.reverse ++ '.' :: before.reverse).elem '.' = true := by
      simp [List.elem_eq_mem]
    have helem2 : after.reverse.elem '/' = false := by
      simp only [List.elem_eq_mem, decide_eq_false_iff_not, List.mem_reverse]
      exact ha2
    have htw2 : before.reverse.takeWhile (fun c => c != '/') = before.reverse := by
      refine takeWhile_all _ ?_
      intro a hamem
      rw [List.mem_reverse] at hamem
      simp only [bne_iff_ne, ne_eq]
      intro hcontra
      exact hb (hcontra ▸ hamem)
    constructor
    · intro hany
      have hanyr : (before.reverse.any fun c => c != '.') = true := by
        rw [List.any_reverse]
        exact hany
      unfold splitextExt
      rw [hr]
      simp only [htw, hdw, helem, helem2, htw2, hanyr]
      simp [List.reverse_reverse]
    · intro hall
      have hanyr : (before.reverse.any fun c => c != '.') = false := by
        rw [List.any_reverse]
        rw [List.all_eq_true] at hall
        rw [List.any_eq_false]
        intro a hamem
        have := hall a hamem
        simp only [beq_iff_eq] at this
        simp [this]
      unfold splitextExt
      rw [hr]
      simp only [htw, hdw, helem, helem2, htw2, hanyr]
      simp [strLower]
  · intro nm p sz s h
    have hb : (strLower (splitextExt nm) != "") = true := by
      simp [bne_iff_ne, h]
    simp only [count_items, hb, if_true]
    exact ⟨dictSet_hasKey _ _ _, dictSet_hasKey _ _ _⟩

/-- Witness for C6: `noext` has no extension; `file.` has extension `.`;
`.TXT` (leading dot only) has none; aggregating `a.TXT` updates both maps
under `.txt`. -/
theorem c6_extension_rule_witness :
    strLower (splitextExt "noext") = "" ∧
    strLower (splitextExt ⟨"file".data ++ '.' :: []⟩) = strLower ⟨'.' :: []⟩ ∧
    strLower (splitextExt ⟨[] ++ '.' :: "TXT".data⟩) = "" ∧
    ((count_items (.fileNode "a.TXT" "a.TXT" 3) initialStats).extensions.any
        (fun q => q.1 == strLower (splitextExt "a.TXT")) = true ∧
     (count_items (.fileNode "a.TXT" "a.TXT" 3) initialStats).size_by_ext.any
        (fun q => q.1 == strLower (splitextExt "a.TXT")) = true) :=
  ⟨c6_extension_rule.1 "noext" (by decide),
   (c6_extension_rule.2.1 "file".data [] (by decide) (by decide) (by decide)).1
     (by decide),
   (c6_extension_rule.2.1 [] "TXT".data (by decide) (by decide) (by decide)).2
     (by decide),
   c6_extension_rule.2.2 "a.TXT" "a.TXT" 3 initialStats (by decide)⟩

/-! ## The largest-files list (C7) -/

/-- Membership in an inserted list. -/
theorem mem_insertDesc {z x : String × Nat} :
    ∀ {l : List (String × Nat)}, z ∈ insertDesc x l ↔ z = x ∨ z ∈ l := by
  intro l
  induction l with
  | nil => simp [insertDesc]
  | cons y ys ih =>
    simp only [insertDesc]
    split <;> (simp only [List.mem_cons, ih]; try tauto)

/-- `insertDesc` preserves descending sortedness. -/
theorem insertDesc_sorted {x : String × Nat} :
    ∀ {l : List (String × Nat)}, SortedDesc l → SortedDesc (insertDesc x l) := by
  intro l h
  induction l with
  | nil => exact List.pairwise_singleton _ _
  | cons y ys ih =>
    obtain ⟨hy, hys⟩ := List.pairwise_cons.mp h
    simp only [insertDesc]
    split
    · rename_i hle
      refine List.pairwise_cons.mpr ⟨?_, List.pairwise_cons.mpr ⟨hy, hys⟩⟩
      intro z hz
      rcases List.mem_cons.mp hz with hz | hz
      · exact hz ▸ hle
      · exact le_trans (hy z hz) hle
    · rename_i hgt
      refine List.pairwise_cons.mpr ⟨?_, ih hys⟩
      intro z hz
      rcases mem_insertDesc.mp hz with hz | hz
      · subst hz
        omega
      · exact hy z hz

/-- The stable descending sort really sorts. -/
theorem sortDesc_sorted : ∀ l : List (String × Nat), SortedDesc (sortDesc l) := by
  intro l
  induction l with
  | nil => exact List.Pairwise.nil
  | cons x xs ih => exact insertDesc_sorted ih

/-- `insertDesc` puts its element at the front when the current head is not
larger. -/
theorem insertDesc_front {y z : String × Nat} (zs : List (String × Nat))
    (h : z.2 ≤ y.2) : insertDesc y (z :: zs) = y :: z :: zs := by
  simp only [insertDesc]
  rw [if_pos h]

/-- `insertDesc` puts its element at the front of a list it dominates. -/
theorem insertDesc_front_all {y : String × Nat} {l : List (String × Nat)}
    (h : ∀ z ∈ l, z.2 ≤ y.2) : insertDesc y l = y :: l := by
  cases l with
  | nil => rfl
  | cons z zs => exact insertDesc_front zs (h z (by simp))

/-- Stable sort of a sorted list with one element appended: the new element
lands after every entry of equal or larger size and before every strictly
smaller one — the appended (later-inserted) element never overtakes an
earlier entry of equal size. -/
theorem sortDesc_append_singleton {x : String × Nat} :
    ∀ {l : List (String × Nat)}, SortedDesc l →
      sortDesc (l ++ [x]) =
        l.takeWhile (fun y => decide (x.2 ≤ y.2)) ++
          x :: l.dropWhile (fun y => decide (x.2 ≤ y.2)) := by
  intro l h
  induction l with
  | nil => rfl
  | cons y l' ih =>
    obtain ⟨hy, hl'⟩ := List.pairwise_cons.mp h
    show insertDesc y (sortDesc (l' ++ [x])) = _
    rw [ih hl']
    by_cases hxy : x.2 ≤ y.2
    · rw [List.takeWhile_cons_of_pos (by simp [hxy]),
        List.dropWhile_cons_of_pos (by simp [hxy])]
      cases htw : l'.takeWhile (fun y => decide (x.2 ≤ y.2)) with
      | nil =>
        simp only [htw, List.nil_append]
        rw [insertDesc_front _ hxy]
        rfl
      | cons z zs =>
        have hz : z ∈ l' := by
          have hsub := List.takeWhile_sublist (l := l') (p := fun y => decide (x.2 ≤ y.2))
          rw [htw] at hsub
          exact hsub.mem (by simp)
        simp only [htw, List.cons_append]
        rw [insertDesc_front _ (hy z hz)]
    · have hylt : y.2 < x.2 := by omega
      have hfail : ∀ z ∈ l', ¬ (x.2 ≤ z.2) := by
        intro z hz
        have := hy z hz
        omega
      have htw : l'.takeWhile (fun y => decide (x.2 ≤ y.2)) = [] := by
        cases l' with
        | nil => rfl
        | cons z zs =>
          rw [List.takeWhile_cons_of_neg]
          simp [hfail z (by simp)]
      have hdw2 : l'.dropWhile (fun y => decide (x.2 ≤ y.2)) = l' := by
        cases l' with
        | nil => rfl
        | cons z zs =>
          rw [List.dropWhile_cons_of_neg]
          simp [hfail z (by simp)]
      rw [htw, hdw2, List.takeWhile_cons_of_neg (by simp; omega),
        List.dropWhile_cons_of_neg (by simp; omega)]
      simp only [List.nil_append]
      show insertDesc y (x :: l') = x :: y :: l'
      simp only [insertDesc]
      rw [if_neg (by omega), insertDesc_front_all hy]

/-- The `largest_files` update of a file node: append, stable-sort
descending, truncate to 10. -/
theorem count_items_largest (nm p : String) (sz : Nat) (s : Stats) :
    (count_items (.fileNode nm p sz) s).largest_files =
      (sortDesc (s.largest_files ++ [(p, sz)])).take 10 := by
  simp only [count_items]
  split <;> rfl

/-- Aggregation preserves the `largest_files` invariant: length at most 10
and sorted descending by size. -/
theorem largest_files_invariant :
    (∀ t s, s.largest_files.length ≤ 10 → SortedDesc s.largest_files →
      ((count_items t s).largest_files.length ≤ 10 ∧
        SortedDesc (count_items t s).largest_files)) ∧
    ∀ l s, s.largest_files.length ≤ 10 → SortedDesc s.largest_files →
      ((count_list l s).largest_files.length ≤ 10 ∧
        SortedDesc (count_list l s).largest_files) := by
  refine structureInd _ _ ?_ ?_ ?_ ?_
  · intro name path size s hlen hsort
    rw [count_items_largest]
    constructor
    · exact List.length_take_le _ _
    · exact List.Pairwise.sublist (List.take_sublist _ _) (sortDesc_sorted _)
  · intro name path cs err ih s hlen hsort
    exact ih _ hlen hsort
  · intro s hlen hsort
    exact ⟨hlen, hsort⟩
  · intro c rest ihc ihr s hlen hsort
    obtain ⟨h1, h2⟩ := ihc s hlen hsort
    exact ihr _ h1 h2

/-- Claim C7 (confirmed): throughout aggregation of any tree the
`largest_files` list keeps length at most 10 and stays sorted descending by
size; each insertion appends the new entry, stable-sorts descending — so the
new entry lands after every existing entry of equal or larger size, keeping
earlier-inserted equal-size entries ahead — and truncates to the first 10;
in particular the final statistics of any tree satisfy the invariant. -/
theorem c7_largest_files :
    (∀ t s, s.largest_files.length ≤ 10 → SortedDesc s.largest_files →
      ((count_items t s).largest_files.length ≤ 10 ∧
        SortedDesc (count_items t s).largest_files)) ∧
    (∀ (l : List (String × Nat)) (x : String × Nat), SortedDesc l →
      (sortDesc (l ++ [x])).take 10 =
        (l.takeWhile (fun y => decide (x.2 ≤ y.2)) ++
          x :: l.dropWhile (fun y => decide (x.2 ≤ y.2))).take 10) ∧
    ∀ t, (get_stats t).largest_files.length ≤ 10 ∧
      SortedDesc (get_stats t).largest_files := by
  refine ⟨largest_files_invariant.1, ?_, ?_⟩
  · intro l x h
    rw [sortDesc_append_singleton h]
  · intro t
    exact largest_files_invariant.1 t initialStats (by decide) (by decide)

/-- Witness for C7: the invariant after aggregating the C1 scenario tree,
and the tie-break on a concrete insertion of an equal-size entry. -/
theorem c7_largest_files_witness :
    ((count_items c1tree initialStats).largest_files.length ≤ 10 ∧
      SortedDesc (count_items c1tree initialStats).largest_files) ∧
    (sortDesc ([("a", 5), ("b", 5)] ++ [("c", 5)])).take 10 =
      (([("a", 5), ("b", 5)] : List (String × Nat)).takeWhile
          (fun y => decide ((("c", 5) : String × Nat).2 ≤ y.2)) ++
        ("c", 5) :: [("a", 5), ("b", 5)].dropWhile
          (fun y => decide ((("c", 5) : String × Nat).2 ≤ y.2))).take 10 :=
  ⟨c7_largest_files.1 c1tree initialStats (by decide) (by decide),
   c7_largest_files.2.1 [("a", 5), ("b", 5)] ("c", 5) (by decide)⟩

/-! ## Depth semantics (C2) -/

theorem splitSlashAux_append (l : List Char) :
    ∀ (cs cur : List Char), '/' ∉ cs →
      splitSlashAux cur (cs ++ '/' :: l) = (cur.reverse ++ cs) :: splitSlashAux [] l := by
  intro cs
  induction cs with
  | nil =>
    intro cur h
    simp [splitSlashAux]
  | cons c cs ih =>
    intro cur h
    have hc : ¬ (c = '/') := fun hcc => h (by simp [hcc])
    show splitSlashAux cur (c :: (cs ++ '/' :: l)) = _
    rw [splitSlashAux, if_neg hc, ih (c :: cur) (fun hm => h (by simp [hm]))]
    simp

theorem splitSlashAux_no_slash :
    ∀ (cs cur : List Char), '/' ∉ cs → splitSlashAux cur cs = [cur.reverse ++ cs] := by
  intro cs
  induction cs with
  | nil =>
    intro cur h
    simp [splitSlashAux]
  | cons c cs ih =>
    intro cur h
    have hc : ¬ (c = '/') := fun hcc => h (by simp [hcc])
    rw [splitSlashAux, if_neg hc, ih (c :: cur) (fun hm => h (by simp [hm]))]
    simp

theorem validSeg_parts {s : String} (h : validSeg s = true) :
    s ≠ "" ∧ s ≠ "." ∧ '/' ∉ s.data := by
  have h' := h
  unfold validSeg at h'
  simp only [Bool.and_eq_true, bne_iff_ne, ne_eq, Bool.not_eq_true',
    List.elem_eq_mem, decide_eq_false_iff_not] at h'
  exact ⟨h'.1.1, h'.1.2, h'.2⟩

theorem joinSegs_split :
    ∀ rel : List String, (∀ s ∈ rel, '/' ∉ s.data) → rel ≠ [] →
      splitSlashAux [] (joinSegs rel) = rel.map String.data := by
  intro rel
  induction rel with
  | nil => exact fun _ h => absurd rfl h
  | cons a rest ih =>
    intro h _
    cases rest with
    | nil =>
      rw [joinSegs]
      simp only [List.isEmpty_nil, if_true]
      rw [splitSlashAux_no_slash _ [] (h a (by simp))]
      simp
    | cons b rest' =>
      rw [joinSegs, if_neg (by simp)]
      rw [splitSlashAux_append _ _ [] (h a (by simp))]
      rw [ih (fun s hs => h s (by simp [hs])) (by simp)]
      simp

theorem map_mk_data : ∀ l : List String, l.map (fun s => (⟨s.data⟩ : String)) = l := by
  intro l
  induction l with
  | nil => rfl
  | cons a rest ih =>
    rw [List.map_cons, ih]

theorem filter_valid :
    ∀ l : List String, (∀ s ∈ l, validSeg s = true) →
      l.filter (fun seg => seg != "" && seg != ".") = l := by
  intro l
  induction l with
  | nil => exact fun _ => rfl
  | cons a rest ih =>
    intro h
    obtain ⟨h1, h2, _⟩ := validSeg_parts (h a (by simp))
    rw [List.filter_cons_of_pos (by simp [h1, h2])]
    rw [ih (fun s hs => h s (by simp [hs]))]

theorem pathParts_pathStr (rel : List String) (h : ∀ s ∈ rel, validSeg s = true) :
    pathParts (pathStr rel) = rel := by
  cases rel with
  | nil => rfl
  | cons a rest =>
    unfold pathStr
    rw [if_neg (by simp)]
    unfold pathParts
    rw [show (⟨joinSegs (a :: rest)⟩ : String).data = joinSegs (a :: rest) from rfl]
    rw [joinSegs_split (a :: rest) (fun s hs => (validSeg_parts (h s hs)).2.2) (by simp)]
    rw [List.map_map]
    rw [show ((fun l => (⟨l⟩ : String)) ∘ String.data) = (fun s => (⟨s.data⟩ : String)) from rfl]
    rw [map_mk_data]
    exact filter_valid _ h

theorem validNamesEnts_insertEnt (x : String × FSNode) (l : List (String × FSNode)) :
    validNamesEnts (insertEnt x l) =
      ((validSeg x.1 && validNames x.2) && validNamesEnts l) := by
  induction l with
  | nil => rfl
  | cons y ys ih =>
    obtain ⟨m, c⟩ := y
    obtain ⟨n, xc⟩ := x
    simp only [insertEnt]
    split
    · rfl
    · simp only [validNamesEnts, ih]
      rw [Bool.and_left_comm]

theorem validNamesEnts_sortEnts (l : List (String × FSNode)) :
    validNamesEnts (sortEnts l) = validNamesEnts l := by
  induction l with
  | nil => rfl
  | cons x xs ih =>
    obtain ⟨n, c⟩ := x
    simp only [sortEnts, validNamesEnts_insertEnt, validNamesEnts, ih]

theorem count_items_max_depth :
    (∀ t s, (count_items t s).max_depth = max s.max_depth (maxDirDepth t)) ∧
    ∀ l s, (count_list l s).max_depth = max s.max_depth (maxDirDepthList l) := by
  refine structureInd _ _ ?_ ?_ ?_ ?_
  · intro name path size s
    simp only [count_items, maxDirDepth]
    split <;> simp
  · intro name path cs err ih s
    simp only [count_items, maxDirDepth]
    rw [ih]
    show max (max s.max_depth (pathParts path).length) (maxDirDepthList cs) = _
    omega
  · intro s
    simp [count_list, maxDirDepthList]
  · intro c rest ihc ihr s
    simp only [count_list, maxDirDepthList]
    rw [ihr, ihc]
    omega

theorem scan_depthsOk :
    ∀ fuel,
      (∀ (fs : FSNode) name rel pats t, fs.sz < fuel →
        validNames fs = true → (∀ s ∈ rel, validSeg s = true) →
        scan_directory fuel name rel fs pats = .ok t →
        depthsOk rel.length t = true) ∧
      (∀ l rel pats cs err, szEnts l < fuel →
        validNamesEnts l = true → (∀ s ∈ rel, validSeg s = true) →
        scanChildren fuel rel pats l = .ok (cs, err) →
        depthsOkList (rel.length + 1) cs = true) := by
  intro fuel
  induction fuel with
  | zero =>
    exact ⟨fun fs _ _ _ _ h => absurd h (by omega),
           fun l _ _ _ _ h => absurd h (by omega)⟩
  | succ fuel ih =>
    constructor
    · intro fs name rel pats t hsz hv hrel hscan
      match fs with
      | .file _ => exact absurd hscan (by rw [scan_directory]; simp)
      | .dir true entries =>
        rw [scan_directory] at hscan
        cases hscan
        simp only [depthsOk, depthsOkList]
        rw [pathParts_pathStr rel hrel]
        simp
      | .dir false entries =>
        rw [scan_directory] at hscan
        split at hscan
        · exact absurd hscan (by simp)
        · rename_i cs err heq
          cases hscan
          simp only [depthsOk]
          rw [pathParts_pathStr rel hrel]
          simp only [beq_self_eq_true, Bool.true_and]
          refine ih.2 (sortEnts entries) rel pats cs err ?_ ?_ hrel heq
          · rw [szEnts_sortEnts]
            have hs : FSNode.sz (.dir false entries) = 1 + szEnts entries := rfl
            omega
          · rw [validNamesEnts_sortEnts]
            exact hv
    · intro l rel pats cs err hsz hv hrel hscan
      match l with
      | [] =>
        rw [scanChildren] at hscan
        cases hscan
        rfl
      | (n, c) :: rest =>
        have hsz' : 1 + FSNode.sz c + szEnts rest < fuel + 1 := hsz
        obtain ⟨hvnc, hvrest⟩ := Bool.and_eq_true_iff.mp hv
        obtain ⟨hvn, hvc⟩ := Bool.and_eq_true_iff.mp hvnc
        have hrel' : ∀ s ∈ rel ++ [n], validSeg s = true := by
          intro s hs
          rcases List.mem_append.mp hs with hs | hs
          · exact hrel s hs
          · rw [List.mem_singleton] at hs
            exact hs ▸ hvn
        cases c with
        | file st =>
          cases st with
          | ok size =>
            by_cases hig : should_ignore (rel ++ [n]) false pats = true
            · rw [scanChildren, if_pos hig] at hscan
              exact ih.2 rest rel pats cs err (by omega) hvrest hrel hscan
            · rcases hrec : scanChildren fuel rel pats rest with e | p
              · rw [scanChildren, if_neg hig, hrec] at hscan
                simp at hscan
              · obtain ⟨cs', err'⟩ := p
                rw [scanChildren, if_neg hig, hrec] at hscan
                simp only [Except.ok.injEq, Prod.mk.injEq] at hscan
                obtain ⟨hcs, herr⟩ := hscan
                subst hcs
                simp only [depthsOkList, depthsOk, Bool.true_and]
                exact ih.2 rest rel pats cs' err' (by omega) hvrest hrel hrec
          | permDenied =>
            by_cases hig : should_ignore (rel ++ [n]) false pats = true
            · rw [scanChildren, if_pos hig] at hscan
              exact ih.2 rest rel pats cs err (by omega) hvrest hrel hscan
            · rw [scanChildren, if_neg hig] at hscan
              simp only [Except.ok.injEq, Prod.mk.injEq] at hscan
              obtain ⟨hcs, herr⟩ := hscan
              subst hcs
              rfl
          | notFound =>
            by_cases hig : should_ignore (rel ++ [n]) false pats = true
            · rw [scanChildren, if_pos hig] at hscan
              exact ih.2 rest rel pats cs err (by omega) hvrest hrel hscan
            · rw [scanChildren, if_neg hig] at hscan
              simp at hscan
        | dir d cs0 =>
          by_cases hig : should_ignore (rel ++ [n]) true pats = true
          · rw [scanChildren, if_pos hig] at hscan
            exact ih.2 rest rel pats cs err (by omega) hvrest hrel hscan
          · rcases hst : scan_directory fuel n (rel ++ [n]) (.dir d cs0) pats with e | st
            · rw [scanChildren, if_neg hig, hst] at hscan
              simp at hscan
            · rcases hrec : scanChildren fuel rel pats rest with e | p
              · rw [scanChildren, if_neg hig, hst, hrec] at hscan
                simp at hscan
              · obtain ⟨cs', err'⟩ := p
                rw [scanChildren, if_neg hig, hst, hrec] at hscan
                simp only [Except.ok.injEq, Prod.mk.injEq] at hscan
                obtain ⟨hcs, herr⟩ := hscan
                subst hcs
                simp only [depthsOkList, Bool.and_eq_true]
                constructor
                · have hd := ih.1 (.dir d cs0) n (rel ++ [n]) pats st
                    (by simp only [FSNode.sz] at hsz' ⊢; omega) hvc hrel' hst
                  rwa [List.length_append, List.length_singleton] at hd
                · exact ih.2 rest rel pats cs' err' (by omega) hvrest hrel hrec

/-- Claim C2 counterexample: scanning an empty root directory succeeds and
aggregation yields `max_depth = 0`, not at least 1: the root's stored
relative path is `"."`, whose `parts` are empty, so the root contributes
depth 0. -/
theorem c2_counterexample :
    scan "r" (.dir false []) [] = .ok emptyRootTree ∧
    (get_stats emptyRootTree).max_depth = 0 ∧
    ¬ 1 ≤ (get_stats emptyRootTree).max_depth :=
  ⟨rfl, rfl, by decide⟩

/-- Claim C2 amended: during aggregation the depth recorded for every
`Directory` node is the number of `parts` of its stored root-relative path
(`max_depth` is the running maximum of these), and for every tree produced
by a scan with well-formed entry names, a directory node at tree level `k`
(root at level 0) stores a path with exactly `k` parts — the root's path
`"."` parses to zero segments, so `max_depth` can be 0 and is not bounded
below by 1. -/
theorem c2_depth_semantics :
    (∀ t s, (count_items t s).max_depth = max s.max_depth (maxDirDepth t)) ∧
    (∀ (fs : FSNode) name pats t, validNames fs = true →
      scan name fs pats = .ok t → depthsOk 0 t = true) ∧
    pathParts "." = [] := by
  refine ⟨count_items_max_depth.1, ?_, rfl⟩
  intro fs name pats t hv hscan
  exact (scan_depthsOk (fs.sz + 1)).1 fs name [] pats t (by omega) hv (by simp) hscan

/-- Witness for C2: the C1 scenario tree has correctly levelled directory
paths. -/
theorem c2_depth_semantics_witness : depthsOk 0 c1tree = true :=
  c2_depth_semantics.2.1 c1fs "root" ["b/"] c1tree (by decide) rfl

/-! ## Exact accounting of file sizes (C8) -/

/-- `insertEnt` preserves cleanness of file stats. -/
theorem cleanStatsEnts_insertEnt (x : String × FSNode) (l : List (String × FSNode)) :
    cleanStatsEnts (insertEnt x l) = (cleanStats x.2 && cleanStatsEnts l) := by
  induction l with
  | nil => rfl
  | cons y ys ih =>
    obtain ⟨m, c⟩ := y
    obtain ⟨n, xc⟩ := x
    simp only [insertEnt]
    split
    · rfl
    · simp only [cleanStatsEnts, ih]
      rw [Bool.and_left_comm]

/-- Sorting entries preserves cleanness of file stats. -/
theorem cleanStatsEnts_sortEnts (l : List (String × FSNode)) :
    cleanStatsEnts (sortEnts l) = cleanStatsEnts l := by
  induction l with
  | nil => rfl
  | cons x xs ih =>
    obtain ⟨n, c⟩ := x
    simp only [sortEnts, cleanStatsEnts_insertEnt, cleanStatsEnts, ih]

/-- `count_items` adds exactly the sizes of the subtree's file nodes to
`total_size`. -/
theorem count_items_total :
    (∀ t s, (count_items t s).total_size =
      s.total_size + ((fileListS t).map Prod.snd).sum) ∧
    ∀ l s, (count_list l s).total_size =
      s.total_size + ((fileListSList l).map Prod.snd).sum := by
  refine structureInd _ _ ?_ ?_ ?_ ?_
  · intro name path size s
    simp only [count_items, fileListS]
    split <;> simp
  · intro name path cs err ih s
    simp only [count_items, fileListS]
    rw [ih]
  · intro s
    simp [count_list, fileListSList]
  · intro c rest ihc ihr s
    simp only [count_list, fileListSList]
    rw [ihr, ihc]
    simp only [List.map_append, List.sum_append]
    omega

/-- With sufficient fuel, scanning a clean directory succeeds with no error
markers, and the file nodes of the result are exactly the qualifying files
(`qualFiles`), in order. -/
theorem scan_files_exact :
    ∀ fuel,
      (∀ (fs : FSNode) name rel pats, fs.sz < fuel → cleanStats fs = true →
        fs.isDir = true →
        ∃ t, scan_directory fuel name rel fs pats = .ok t ∧
          fileListS t = qualFiles fuel pats rel fs) ∧
      (∀ l rel pats, szEnts l < fuel → cleanStatsEnts l = true →
        ∃ cs, scanChildren fuel rel pats l = .ok (cs, none) ∧
          fileListSList cs = qualFilesList fuel pats rel l) := by
  intro fuel
  induction fuel with
  | zero =>
    exact ⟨fun fs _ _ _ h => absurd h (by omega),
           fun l _ _ h => absurd h (by omega)⟩
  | succ fuel ih =>
    constructor
    · intro fs name rel pats hsz hcl hdir
      match fs with
      | .file _ => simp [FSNode.isDir] at hdir
      | .dir true entries => exact ⟨_, rfl, rfl⟩
      | .dir false entries =>
        have hb : szEnts (sortEnts entries) < fuel := by
          rw [szEnts_sortEnts]
          have hs : FSNode.sz (.dir false entries) = 1 + szEnts entries := rfl
          omega
        have hn : cleanStatsEnts (sortEnts entries) = true := by
          rw [cleanStatsEnts_sortEnts]
          exact hcl
        obtain ⟨cs, h, hf⟩ := ih.2 (sortEnts entries) rel pats hb hn
        refine ⟨.dirNode name (pathStr rel) cs none, ?_, ?_⟩
        · rw [scan_directory, h]
        · show fileListSList cs = _
          rw [hf]
          rfl
    · intro l rel pats hsz hcl
      match l with
      | [] => exact ⟨[], rfl, rfl⟩
      | (n, c) :: rest =>
        have hsz' : 1 + FSNode.sz c + szEnts rest < fuel + 1 := hsz
        obtain ⟨hc, hrest⟩ := Bool.and_eq_true_iff.mp hcl
        cases c with
        | file st =>
          cases st with
          | ok size =>
            by_cases hig : should_ignore (rel ++ [n]) false pats = true
            · obtain ⟨cs, h, hf⟩ := ih.2 rest rel pats (by omega) hrest
              refine ⟨cs, ?_, ?_⟩
              · rw [scanChildren, if_pos hig, h]
              · rw [hf, qualFilesList]
                rw [show FSNode.isDir (.file (.ok size)) = false from rfl, if_pos hig]
            · obtain ⟨cs, h, hf⟩ := ih.2 rest rel pats (by omega) hrest
              refine ⟨.fileNode n (pathStr (rel ++ [n])) size :: cs, ?_, ?_⟩
              · rw [scanChildren, if_neg hig, h]
              · rw [fileListSList, fileListS, qualFilesList]
                rw [show FSNode.isDir (.file (.ok size)) = false from rfl, if_neg hig]
                rw [hf]
                rfl
          | permDenied => simp [cleanStats] at hc
          | notFound => simp [cleanStats] at hc
        | dir d cs0 =>
          by_cases hig : should_ignore (rel ++ [n]) true pats = true
          · obtain ⟨cs, h, hf⟩ := ih.2 rest rel pats (by omega) hrest
            refine ⟨cs, ?_, ?_⟩
            · rw [scanChildren, if_pos hig, h]
            · rw [hf, qualFilesList]
              rw [show FSNode.isDir (.dir d cs0) = true from rfl, if_pos hig]
          · obtain ⟨t, ht, htf⟩ := ih.1 (.dir d cs0) n (rel ++ [n]) pats
              (by simp only [FSNode.sz] at hsz' ⊢; omega) hc rfl
            obtain ⟨cs, h, hf⟩ := ih.2 rest rel pats (by omega) hrest
            refine ⟨t :: cs, ?_, ?_⟩
            · rw [scanChildren, if_neg hig, ht, h]
            · rw [fileListSList, qualFilesList]
              rw [show FSNode.isDir (.dir d cs0) = true from rfl, if_neg hig]
              rw [htf, hf]

/-- Claim C8 counterexample: in a root holding `a.txt` (10 bytes, healthy)
and `b.txt` (whose `stat()` is permission-denied), the root node carries the
error marker, so no file of the tree lies outside an errored directory —
yet `total_size` is 10, not the sum (0) over exactly the files outside
ignored/errored directories.  The already-scanned sibling stays in the tree
and contributes. -/
theorem c8_counterexample :
    scan "r" permFS [] = .ok permTree ∧
    (get_stats permTree).total_size = 10 ∧
    filesOutsideErrored permTree = [] ∧
    (get_stats permTree).total_size ≠ ((filesOutsideErrored permTree).map Prod.snd).sum :=
  ⟨rfl, rfl, rfl, by decide⟩

/-- Claim C8 amended: aggregation adds exactly the sizes of the `File`
nodes present in the tree to `total_size`; and for every scan of a
directory root all of whose file stats succeed, the built tree's file nodes
are exactly the files not matched by any ignore pattern and not inside an
ignored or listing-denied directory (each appearing exactly once, in sorted
walk order, contributing exactly its size), so `total_size` is the sum of
exactly those files' sizes.  When a file's size query is denied, the
entries of that directory scanned before the failure remain in the tree and
still contribute (cf. the counterexample). -/
theorem c8_total_size_exact :
    (∀ t s, (count_items t s).total_size =
      s.total_size + ((fileListS t).map Prod.snd).sum) ∧
    ∀ name (d : Bool) entries pats, cleanStats (.dir d entries) = true →
      ∃ t, scan name (.dir d entries) pats = .ok t ∧
        fileListS t = qualFilesTop pats (.dir d entries) ∧
        (get_stats t).total_size =
          ((qualFilesTop pats (.dir d entries)).map Prod.snd).sum := by
  refine ⟨count_items_total.1, ?_⟩
  intro name d entries pats hcl
  obtain ⟨t, ht, htf⟩ := (scan_files_exact (FSNode.sz (.dir d entries) + 1)).1
    (.dir d entries) name [] pats (by omega) hcl rfl
  refine ⟨t, ht, htf, ?_⟩
  unfold get_stats
  rw [count_items_total.1, htf]
  show 0 + _ = _
  rw [Nat.zero_add]
  rfl

/-- Witness for C8: the C1 scenario filesystem is clean, and its scan's
file nodes and total size match the qualifying files exactly. -/
theorem c8_total_size_exact_witness :
    ∃ t, scan "root" c1fs ["b/"] = .ok t ∧
      fileListS t = qualFilesTop ["b/"] c1fs ∧
      (get_stats t).total_size = ((qualFilesTop ["b/"] c1fs).map Prod.snd).sum :=
  c8_total_size_exact.2 "root" false _ ["b/"] (by decide)

end Vortx
